import Mathlib

/-!
Shallow embedding of the workflow engine (engine.py, scheduler.py,
triggers.py) and proofs about its documented behaviour.

Modelling conventions:
* Python dicts keyed by strings become association lists
  (`List (String × α)`), read through `alookup` (first binding wins) and
  written through `ainsert` / `aerase`; insertion order is preserved, as
  CPython dicts do.
* `datetime.now()` is an external clock, passed in as an explicit
  argument (`now`); the engine only stores it, never branches on it.
* A task's callable `self.func(**self.params)` is an external effect: it
  is modelled as a function from the invocation index (the value of
  `try_count` at call time) to `Except String String`, where `.error e`
  models the callable raising an exception with message `e` and `.ok v`
  models a normal return.
* `while` loops are modelled with an explicit fuel argument; `none` /
  a dedicated constructor means the loop was still running after `fuel`
  iterations (the real loop can in fact run forever, e.g. when a failed
  task has pending dependents).
* `raise ValueError(...)` in `run_dag` is modelled by the
  `RunResult.notFoundError` constructor carrying the message.
-/

namespace Workflow

/-- Association-list read: first binding for the key, as a Python dict read. -/
def alookup {α : Type} (l : List (String × α)) (k : String) : Option α :=
  (l.find? (fun p => p.1 = k)).map Prod.snd

/-- Association-list write, mirroring `d[k] = v` on a Python dict: an existing
key keeps its position and gets the new value, a new key is appended. -/
def ainsert {α : Type} (l : List (String × α)) (k : String) (v : α) :
    List (String × α) :=
  if k ∈ l.map Prod.fst then
    l.map (fun p => if p.1 = k then (k, v) else p)
  else l ++ [(k, v)]

/-- Association-list delete, mirroring `del d[k]`. -/
def aerase {α : Type} (l : List (String × α)) (k : String) :
    List (String × α) :=
  l.filter (fun p => ¬ (p.1 = k))

/-- `TaskStatus` enum from engine.py. -/
inductive TaskStatus where
  | PENDING
  | RUNNING
  | SUCCESS
  | FAILED
  | SKIPPED
deriving DecidableEq, Repr

/-- `Task` from engine.py. `func` is the bound callable: invocation number
(the `try_count` value at call time) to outcome. -/
structure Task where
  task_id : String
  func : Nat → Except String String
  params : List (String × String)
  depends_on : List String
  status : TaskStatus
  result : Option String
  error : Option String
  started_at : Option Nat
  completed_at : Option Nat
  try_count : Nat

/-- `Task.__init__`: fresh task, PENDING, no error, zero attempts. -/
def Task.init (task_id : String) (func : Nat → Except String String)
    (params : List (String × String)) (depends_on : List String) : Task :=
  { task_id := task_id, func := func, params := params,
    depends_on := depends_on, status := TaskStatus.PENDING, result := none,
    error := none, started_at := none, completed_at := none, try_count := 0 }

/-- `Task.execute`: set RUNNING, record start time, bump the attempt counter,
invoke the callable; on success store the result and set SUCCESS, on failure
set FAILED, store the message and re-raise (the second component is the
propagated outcome); the `finally` block records the end time on both paths.
Note the source never clears `error` on a later successful attempt. -/
def Task.execute (t : Task) (now : Nat) : Task × Except String String :=
  let t1 : Task :=
    { t with status := TaskStatus.RUNNING, started_at := some now,
             try_count := t.try_count + 1 }
  match t1.func t.try_count with
  | Except.ok v =>
      ({ t1 with result := some v, status := TaskStatus.SUCCESS,
                 completed_at := some now }, Except.ok v)
  | Except.error e =>
      ({ t1 with status := TaskStatus.FAILED, error := some e,
                 completed_at := some now }, Except.error e)

/-- Repeated direct invocations of `execute` (the caller catching any raised
exception in between), at the given sequence of clock readings. -/
def Task.executeSeq (t : Task) (times : List Nat) : Task :=
  times.foldl (fun u now => (u.execute now).1) t

/-- Ids of a task list, in insertion order (the keys of `self.tasks`). -/
def taskIds (tasks : List Task) : List String := tasks.map Task.task_id

/-- Loop body of `DAG.get_ready_tasks`: keep tasks with status PENDING whose
whole dependency list is inside `completed`, in iteration order. -/
def getReady : List Task → List String → List Task
  | [], _ => []
  | t :: rest, completed =>
    if t.status = TaskStatus.PENDING ∧ ∀ d ∈ t.depends_on, d ∈ completed then
      t :: getReady rest completed
    else getReady rest completed

/-- Inner loop of the in-degree pass of `topological_sort`: for each
dependency of task `tid` that is a key of the task mapping, bump
`in_degree[tid]`. -/
def bumpOne (ids : List String) (tid : String) :
    List String → (String → Int) → (String → Int)
  | [], deg => deg
  | d :: rest, deg =>
    if d ∈ ids then
      bumpOne ids tid rest
        (fun x => if x = tid then deg tid + 1 else deg x)
    else bumpOne ids tid rest deg

/-- Outer loop of the in-degree pass: run `bumpOne` for every task. -/
def initLoop (ids : List String) : List Task → (String → Int) → (String → Int)
  | [], deg => deg
  | t :: rest, deg => initLoop ids rest (bumpOne ids t.task_id t.depends_on deg)

/-- The in-degree table after the first pass of `topological_sort`
(`in_degree = {tid: 0 ...}` then the nested bump loop). -/
def initInDegree (tasks : List Task) : String → Int :=
  initLoop (taskIds tasks) tasks (fun _ => 0)

/-- Body of the inner `for task in self.tasks.values()` of the Kahn loop:
tasks that depend on `current` get their in-degree decremented, and those
that reach zero are collected (in iteration order) to be enqueued. -/
def processCurrent (current : String) :
    List Task → (String → Int) → ((String → Int) × List String)
  | [], deg => (deg, [])
  | t :: rest, deg =>
    if current ∈ t.depends_on then
      let d := deg t.task_id - 1
      let deg2 : String → Int := fun x => if x = t.task_id then d else deg x
      let r := processCurrent current rest deg2
      (r.1, if d = 0 then t.task_id :: r.2 else r.2)
    else processCurrent current rest deg

/-- The `while queue:` loop of `topological_sort`, with explicit fuel. Each
iteration pops one id, so `tasks.length` fuel is enough for any input whose
ids are distinct (every id enters the queue at most once); once the queue is
empty the fuel value is irrelevant. -/
def kahnLoop (tasks : List Task) :
    Nat → (String → Int) → List String → List String → List String
  | 0, _, _, order => order
  | fuel + 1, deg, queue, order =>
    match queue with
    | [] => order
    | current :: rest =>
      let pr := processCurrent current tasks deg
      kahnLoop tasks fuel pr.1 (rest ++ pr.2) (order ++ [current])

/-- `DAG.topological_sort` on the underlying task list: in-degree pass,
initial queue of zero in-degree ids in mapping order, then the Kahn loop. -/
def kahnSort (tasks : List Task) : List String :=
  let deg := initInDegree tasks
  let queue := taskIds (tasks.filter (fun t => decide (deg t.task_id = 0)))
  kahnLoop tasks tasks.length deg queue []

/-- `DAG` from engine.py. -/
structure DAG where
  dag_id : String
  tasks : List Task
  execution_order : List String

/-- `DAG.topological_sort` (it also stores the order in
`execution_order`; `run_dag` below performs that store). -/
def DAG.topological_sort (d : DAG) : List String := kahnSort d.tasks

/-- `DAG.get_ready_tasks`. -/
def DAG.get_ready_tasks (d : DAG) (completed : List String) : List Task :=
  getReady d.tasks completed

/-- A run record (the dict built in `run_dag`). -/
structure Run where
  run_id : String
  dag_id : String
  status : String
  started_at : Option Nat
  completed_at : Option Nat
  tasks_completed : List String
  tasks_failed : List String
deriving DecidableEq, Repr

/-- `WorkflowEngine`: DAG registry, in-memory run registry, and the
persisted run records (one file per run id, modelled as a keyed store). -/
structure WorkflowEngine where
  dags : List (String × DAG)
  runs : List (String × Run)
  storage : List (String × Run)

/-- One pass over `ready_tasks[:max_parallel]` in `run_dag`: execute each
task, write the mutated task back into the mapping, and append its id to
`completed` on success or to `failed` on a raised exception. -/
def execBatch (now : Nat) :
    List Task → List Task → List String → List String →
    List Task × List String × List String
  | [], tasks, completed, failed => (tasks, completed, failed)
  | t :: rest, tasks, completed, failed =>
    match t.execute now with
    | (t2, Except.ok _) =>
        execBatch now rest
          (tasks.map (fun u => if u.task_id = t2.task_id then t2 else u))
          (completed ++ [t.task_id]) failed
    | (t2, Except.error _) =>
        execBatch now rest
          (tasks.map (fun u => if u.task_id = t2.task_id then t2 else u))
          completed (failed ++ [t.task_id])

/-- The `while len(completed) + len(failed) < len(dag.tasks)` loop of
`run_dag`, with explicit fuel; `none` models the loop still running after
`fuel` iterations (it really can spin forever when nothing is ready). -/
def runLoop (now max_parallel : Nat) :
    Nat → List Task → List String → List String →
    Option (List Task × List String × List String)
  | 0, _, _, _ => none
  | fuel + 1, tasks, completed, failed =>
    if completed.length + failed.length < tasks.length then
      let ready := getReady tasks completed
      let st := execBatch now (ready.take max_parallel) tasks completed failed
      runLoop now max_parallel fuel st.1 st.2.1 st.2.2
    else some (tasks, completed, failed)

/-- Outcome of `run_dag`: `notFoundError msg` models
`raise ValueError(msg)` escaping to the caller, `diverges` models the drive
loop still running after the supplied fuel, and `finished run_id engine`
models a normal return of the run id with the mutated engine state. -/
inductive RunResult where
  | notFoundError (msg : String)
  | diverges
  | finished (run_id : String) (engine : WorkflowEngine)

/-- `WorkflowEngine.run_dag`. The run id is produced from a digest of the
dag id and the current time; the digest is opaque to the logic, so it is
passed in as `run_id`. On normal termination the run record (the same dict
object that was placed in `self.runs`) holds the final status and task
lists, and is persisted keyed by the run id. -/
def WorkflowEngine.run_dag (e : WorkflowEngine) (dag_id : String)
    (max_parallel : Nat) (run_id : String) (now : Nat) (fuel : Nat) :
    RunResult :=
  match alookup e.dags dag_id with
  | none => RunResult.notFoundError ("DAG " ++ dag_id ++ " not found")
  | some dag =>
    let order := kahnSort dag.tasks
    let dag1 : DAG := { dag with execution_order := order }
    match runLoop now max_parallel fuel dag1.tasks [] [] with
    | none => RunResult.diverges
    | some (tasksF, completed, failed) =>
      let runF : Run :=
        { run_id := run_id, dag_id := dag_id,
          status := if failed.isEmpty then "completed" else "failed",
          started_at := some now, completed_at := some now,
          tasks_completed := completed, tasks_failed := failed }
      let dagF : DAG := { dag1 with tasks := tasksF }
      RunResult.finished run_id
        { dags := ainsert e.dags dag_id dagF,
          runs := ainsert e.runs run_id runF,
          storage := ainsert e.storage run_id runF }

/-- `Schedule` from scheduler.py. Times are integers (seconds). -/
structure Schedule where
  dag_id : String
  schedule_type : String
  interval : Option Int
  enabled : Bool
  last_run : Option Int
  next_run : Option Int
deriving DecidableEq, Repr

/-- `Schedule.__init__`. -/
def Schedule.init (dag_id schedule_type : String) (interval : Option Int) :
    Schedule :=
  { dag_id := dag_id, schedule_type := schedule_type, interval := interval,
    enabled := true, last_run := none, next_run := none }

/-- `Schedule.calculate_next_run`: only the kinds daily / hourly / interval
(with a truthy interval) update `next_run`; every other kind leaves it
untouched. -/
def Schedule.calculate_next_run (s : Schedule) (now : Int) : Schedule :=
  if s.schedule_type = "daily" then { s with next_run := some (now + 86400) }
  else if s.schedule_type = "hourly" then
    { s with next_run := some (now + 3600) }
  else if s.schedule_type = "interval" then
    match s.interval with
    | some i => if i ≠ 0 then { s with next_run := some (now + i) } else s
    | none => s
  else s

/-- `Scheduler`: in-memory registry plus the persisted snapshot file
(`schedules.json`), `none` while never written. -/
structure Scheduler where
  schedules : List (String × Schedule)
  snapshot : Option (List (String × Schedule))
deriving DecidableEq, Repr

/-- `Scheduler.add_schedule`: register, recompute `next_run`, persist. The
registry holds the mutated schedule object. -/
def Scheduler.add_schedule (sch : Scheduler) (s : Schedule) (now : Int) :
    Scheduler :=
  let s1 := s.calculate_next_run now
  let reg := ainsert sch.schedules s.dag_id s1
  { schedules := reg, snapshot := some reg }

/-- `Scheduler.remove_schedule`: delete and persist only when the dag id is
registered. -/
def Scheduler.remove_schedule (sch : Scheduler) (dag_id : String) :
    Scheduler :=
  if (alookup sch.schedules dag_id).isSome then
    let reg := aerase sch.schedules dag_id
    { schedules := reg, snapshot := some reg }
  else sch

/-- `Scheduler.enable_schedule`. -/
def Scheduler.enable_schedule (sch : Scheduler) (dag_id : String) :
    Scheduler :=
  match alookup sch.schedules dag_id with
  | some s =>
    let reg := ainsert sch.schedules dag_id { s with enabled := true }
    { schedules := reg, snapshot := some reg }
  | none => sch

/-- `Scheduler.disable_schedule`. -/
def Scheduler.disable_schedule (sch : Scheduler) (dag_id : String) :
    Scheduler :=
  match alookup sch.schedules dag_id with
  | some s =>
    let reg := ainsert sch.schedules dag_id { s with enabled := false }
    { schedules := reg, snapshot := some reg }
  | none => sch

/-- `Scheduler.mark_run`: for a registered dag id, record `last_run = now`,
recompute `next_run`, persist; otherwise do nothing. -/
def Scheduler.mark_run (sch : Scheduler) (dag_id : String) (now : Int) :
    Scheduler :=
  match alookup sch.schedules dag_id with
  | some s =>
    let s1 := ({ s with last_run := some now }).calculate_next_run now
    let reg := ainsert sch.schedules dag_id s1
    { schedules := reg, snapshot := some reg }
  | none => sch

/-- `TriggerManager`, restricted to the listener fan-out mapping
`trigger id → listening dag ids` that `add_listener` operates on (the
trigger registry itself is untouched by the listener operations). -/
structure TriggerManager where
  listeners : List (String × List String)
deriving DecidableEq, Repr

/-- `TriggerManager.add_listener`: create the entry if the trigger id is
new, then append the dag id only when it is not already listening. -/
def TriggerManager.add_listener (tm : TriggerManager)
    (trigger_id dag_id : String) : TriggerManager :=
  let base :=
    match alookup tm.listeners trigger_id with
    | some l => l
    | none => []
  let l2 := if dag_id ∈ base then base else base ++ [dag_id]
  { listeners := ainsert tm.listeners trigger_id l2 }

/-- Dependencies of a task that are present in the task mapping — exactly the
ones `topological_sort` counts and `get_ready_tasks` can ever see completed. -/
def presentDeps (ids : List String) (t : Task) : List String :=
  t.depends_on.filter (fun d => decide (d ∈ ids))

/-- The dependency relation of a task list is acyclic: some rank function
makes every in-mapping dependency edge strictly increasing. For a finite
graph this is precisely the absence of a dependency cycle. -/
def AcyclicTasks (tasks : List Task) : Prop :=
  ∃ rank : String → Nat, ∀ t ∈ tasks, ∀ d ∈ t.depends_on,
    d ∈ taskIds tasks → rank d < rank t.task_id

/-- Relation between a task before and after a run: either untouched, or
executed exactly once (attempt counter up by one, no longer PENDING). -/
def TaskStep (t0 t1 : Task) : Prop :=
  t1.task_id = t0.task_id ∧
  (t1 = t0 ∨ (t1.try_count = t0.try_count + 1 ∧
    t1.status ≠ TaskStatus.PENDING ∧ t0.status = TaskStatus.PENDING))

/-- A callable that raises "boom" on its first invocation and returns
normally afterwards. -/
def flakyFunc : Nat → Except String String :=
  fun n => if n = 0 then Except.error "boom" else Except.ok "ok"

/-- Task whose callable always raises. -/
def failT : Task := Task.init "a" (fun _ => Except.error "boom") [] []

/-- Engine with one registered DAG "d" holding the always-failing task. -/
def engineEx : WorkflowEngine :=
  { dags := [("d", { dag_id := "d", tasks := [failT], execution_order := [] })],
    runs := [], storage := [] }

/-- Engine with no registered DAGs. -/
def emptyEngine : WorkflowEngine := { dags := [], runs := [], storage := [] }

/-- Scheduler before any mutation. -/
def schedEmpty : Scheduler := { schedules := [], snapshot := none }

/-- Trigger manager with no listeners. -/
def tmEmpty : TriggerManager := { listeners := [] }

/-- Task with given id and dependency ids, callable always succeeding. -/
def depTask (id : String) (deps : List String) : Task :=
  Task.init id (fun _ => Except.ok "r") [] deps

/-- Acyclic input whose second task lists the same dependency twice. -/
def dupTasks : List Task := [depTask "a" [], depTask "b" ["a", "a"]]

/-- DAG wrapping `dupTasks`. -/
def dupDAG : DAG := { dag_id := "dup", tasks := dupTasks, execution_order := [] }

/-- Two tasks depending on each other: a dependency cycle. -/
def cycTasks : List Task := [depTask "a" ["b"], depTask "b" ["a"]]

/-- DAG wrapping `cycTasks`. -/
def cycDAG : DAG := { dag_id := "cyc", tasks := cycTasks, execution_order := [] }

/-- A two-task chain b-after-a, with a dangling dependency id on a. -/
def chainTasks : List Task := [depTask "a" ["ghost"], depTask "b" ["a"]]

/-- DAG wrapping `chainTasks`. -/
def chainDAG : DAG :=
  { dag_id := "chain", tasks := chainTasks, execution_order := [] }

end Workflow

namespace Workflow

/-! Association-list lemmas. -/

theorem alookup_cons {α : Type} (a : String) (b : α) (t : List (String × α))
    (k : String) :
    alookup ((a, b) :: t) k = if a = k then some b else alookup t k := by
  by_cases h : a = k
  · rw [alookup, List.find?_cons_of_pos _ (by simpa using h), if_pos h]
    rfl
  · rw [alookup, List.find?_cons_of_neg _ (by simpa using h), if_neg h]
    rfl

theorem alookup_eq_none {α : Type} (l : List (String × α)) (k : String)
    (h : k ∉ l.map Prod.fst) : alookup l k = none := by
  induction l with
  | nil => rfl
  | cons p t ih =>
    simp only [List.map_cons, List.mem_cons, not_or] at h
    obtain ⟨p1, p2⟩ := p
    rw [alookup_cons, if_neg (fun he => h.1 he.symm)]
    exact ih h.2

theorem alookup_map_replace {α : Type} (l : List (String × α)) (k : String)
    (v : α) (h : k ∈ l.map Prod.fst) :
    alookup (l.map (fun p => if p.1 = k then (k, v) else p)) k = some v := by
  induction l with
  | nil => cases h
  | cons p t ih =>
    by_cases hp : p.1 = k
    · simp [alookup, hp]
    · simp only [List.map_cons, List.mem_cons] at h
      rcases h with h | h
      · exact absurd h.symm hp
      · simpa [alookup, hp] using ih h

theorem alookup_ainsert_self {α : Type} (l : List (String × α)) (k : String)
    (v : α) : alookup (ainsert l k v) k = some v := by
  by_cases h : k ∈ l.map Prod.fst
  · rw [ainsert, if_pos h]
    exact alookup_map_replace l k v h
  · rw [ainsert, if_neg h]
    have hn : l.find? (fun p => decide (p.1 = k)) = none := by
      have := alookup_eq_none l k h
      simpa [alookup, Option.map_eq_none] using this
    simp [alookup, List.find?_append, hn]

/-! `get_ready_tasks` lemmas. -/

theorem getReady_eq_filter (tasks : List Task) (completed : List String) :
    getReady tasks completed =
      tasks.filter (fun t =>
        decide (t.status = TaskStatus.PENDING ∧
          ∀ d ∈ t.depends_on, d ∈ completed)) := by
  induction tasks with
  | nil => rfl
  | cons t rest ih =>
    by_cases h : t.status = TaskStatus.PENDING ∧
        ∀ d ∈ t.depends_on, d ∈ completed
    · simp [getReady, h, ih, List.filter_cons]
    · simp [getReady, h, ih, List.filter_cons]

theorem mem_getReady {t : Task} {tasks : List Task} {completed : List String} :
    t ∈ getReady tasks completed ↔
      t ∈ tasks ∧ t.status = TaskStatus.PENDING ∧
        ∀ d ∈ t.depends_on, d ∈ completed := by
  rw [getReady_eq_filter]
  simp [List.mem_filter]

theorem getReady_sublist (tasks : List Task) (completed : List String) :
    List.Sublist (getReady tasks completed) tasks := by
  rw [getReady_eq_filter]
  exact List.filter_sublist tasks

/-- C4. `get_ready_tasks` returns exactly the PENDING tasks whose whole
dependency list is inside the completed set, as a sublist of the task
mapping (so in insertion order); consequently it never returns a RUNNING or
terminal task, nor one with an unmet dependency. -/
theorem get_ready_tasks_spec (d : DAG) (completed : List String) :
    (∀ t, t ∈ d.get_ready_tasks completed ↔
      (t ∈ d.tasks ∧ t.status = TaskStatus.PENDING ∧
        ∀ dep ∈ t.depends_on, dep ∈ completed)) ∧
    List.Sublist (d.get_ready_tasks completed) d.tasks ∧
    (∀ t ∈ d.get_ready_tasks completed,
      t.status ≠ TaskStatus.RUNNING ∧ t.status ≠ TaskStatus.SUCCESS ∧
      t.status ≠ TaskStatus.FAILED ∧ t.status ≠ TaskStatus.SKIPPED) := by
  refine ⟨fun t => mem_getReady, getReady_sublist _ _, fun t ht => ?_⟩
  have hp := (mem_getReady.mp ht).2.1
  rw [hp]
  refine ⟨?_, ?_, ?_, ?_⟩ <;> intro hc <;> cases hc

/-- C5. The code violates the claimed invariant: a callable that raises on
the first invocation and succeeds on the second leaves the task reporting
status SUCCESS together with the stale non-empty error "boom" of the first
attempt, because `execute` never clears `self.error` on success. -/
theorem execute_success_retains_stale_error :
    ((Task.init "t" flakyFunc [] []).executeSeq [0, 1]).status =
        TaskStatus.SUCCESS ∧
      ((Task.init "t" flakyFunc [] []).executeSeq [0, 1]).error =
        some "boom" :=
  ⟨rfl, rfl⟩

/-- C7. The code does not reject an unsupported schedule kind:
`add_schedule` with kind "weekly" registers the schedule unchanged (its
`next_run` still unset), persists the snapshot, and reports no error (the
operation has no error channel at all). -/
theorem add_schedule_accepts_unknown_kind :
    alookup (schedEmpty.add_schedule (Schedule.init "d" "weekly" none)
        0).schedules "d" = some (Schedule.init "d" "weekly" none) ∧
    (Schedule.init "d" "weekly" none).next_run = none ∧
    (schedEmpty.add_schedule (Schedule.init "d" "weekly" none) 0).snapshot =
      some [("d", Schedule.init "d" "weekly" none)] :=
  ⟨rfl, rfl, rfl⟩

/-- C10. Calling `remove_schedule`, `enable_schedule`, `disable_schedule`
or `mark_run` with an unregistered dag id leaves the scheduler — both the
in-memory registry and the persisted snapshot — completely unchanged; none
of these operations has an error channel, so no error is reported. -/
theorem scheduler_unknown_dag_noop (sch : Scheduler) (dag_id : String)
    (now : Int) (h : alookup sch.schedules dag_id = none) :
    sch.remove_schedule dag_id = sch ∧ sch.enable_schedule dag_id = sch ∧
      sch.disable_schedule dag_id = sch ∧ sch.mark_run dag_id now = sch := by
  refine ⟨?_, ?_, ?_, ?_⟩ <;>
    simp [Scheduler.remove_schedule, Scheduler.enable_schedule,
      Scheduler.disable_schedule, Scheduler.mark_run, h]

/-- Witness for C10 at a concrete scheduler and dag id. -/
theorem scheduler_unknown_dag_noop_witness :
    alookup schedEmpty.schedules "x" = none ∧
    (schedEmpty.remove_schedule "x" = schedEmpty ∧
      schedEmpty.enable_schedule "x" = schedEmpty ∧
      schedEmpty.disable_schedule "x" = schedEmpty ∧
      schedEmpty.mark_run "x" 0 = schedEmpty) :=
  ⟨rfl, scheduler_unknown_dag_noop schedEmpty "x" 0 rfl⟩

/-- C3 counterexample to the claim as stated: on an unregistered dag id,
`run_dag` raises `ValueError` (modelled by `RunResult.notFoundError`), a
propagated failure rather than an explicit absence value — api.py even
catches exactly this exception. -/
theorem run_dag_unknown_dag_raises :
    emptyEngine.run_dag "missing" 4 "r" 0 1 =
      RunResult.notFoundError "DAG missing not found" := rfl

/-- C3 amended: for every dag id missing from the registry, `run_dag`
signals NotFound by raising a `ValueError` naming the dag id — a propagated
failure to the caller, not a returned absence value. -/
theorem run_dag_not_found_is_propagated (e : WorkflowEngine) (dag_id : String)
    (max_parallel : Nat) (run_id : String) (now fuel : Nat)
    (h : alookup e.dags dag_id = none) :
    e.run_dag dag_id max_parallel run_id now fuel =
      RunResult.notFoundError ("DAG " ++ dag_id ++ " not found") := by
  unfold WorkflowEngine.run_dag
  rw [h]

/-- Witness for the amended C3 at a concrete engine and dag id. -/
theorem run_dag_not_found_is_propagated_witness :
    alookup emptyEngine.dags "x" = none ∧
    emptyEngine.run_dag "x" 4 "r" 0 1 =
      RunResult.notFoundError ("DAG " ++ "x" ++ " not found") :=
  ⟨rfl, run_dag_not_found_is_propagated emptyEngine "x" 4 "r" 0 1 rfl⟩

/-- C2. Whenever `run_dag` terminates normally, the persisted record keyed
by the run id has status "failed" when the failed-task list is nonempty and
"completed" otherwise, and the returned value is that run id. -/
theorem run_dag_terminal_record (e : WorkflowEngine) (dag_id : String)
    (max_parallel : Nat) (run_id : String) (now fuel : Nat)
    (rid : String) (e2 : WorkflowEngine)
    (h : e.run_dag dag_id max_parallel run_id now fuel =
      RunResult.finished rid e2) :
    rid = run_id ∧
    ∃ rec, alookup e2.storage run_id = some rec ∧ rec.run_id = run_id ∧
      rec.dag_id = dag_id ∧
      rec.status =
        (if rec.tasks_failed.isEmpty then "completed" else "failed") := by
  unfold WorkflowEngine.run_dag at h
  cases hd : alookup e.dags dag_id with
  | none => rw [hd] at h; exact RunResult.noConfusion h
  | some dag =>
    rw [hd] at h
    dsimp only at h
    cases hl : runLoop now max_parallel fuel dag.tasks [] [] with
    | none => rw [hl] at h; exact RunResult.noConfusion h
    | some res =>
      obtain ⟨tasksF, completed, failed⟩ := res
      rw [hl] at h
      injection h with h1 h2
      subst h1
      subst h2
      exact ⟨rfl, _, alookup_ainsert_self _ _ _, rfl, rfl, rfl⟩

/-- Witness for C2: the always-failing one-task DAG terminates with a
persisted record keyed by the run id whose status obeys the failed-list
rule. -/
theorem run_dag_terminal_record_witness :
    ∃ e2 rec, engineEx.run_dag "d" 4 "r1" 0 2 = RunResult.finished "r1" e2 ∧
      alookup e2.storage "r1" = some rec ∧ rec.run_id = "r1" ∧
      rec.dag_id = "d" ∧
      rec.status =
        (if rec.tasks_failed.isEmpty then "completed" else "failed") := by
  obtain ⟨h1, rec, h2, h3, h4, h5⟩ :=
    run_dag_terminal_record engineEx "d" 4 "r1" 0 2 "r1" _ rfl
  exact ⟨_, rec, rfl, h2, h3, h4, h5⟩


/-! `add_listener` lemmas (C8). -/

theorem add_listener_listeners (tm : TriggerManager) (tid d : String) :
    (tm.add_listener tid d).listeners =
      ainsert tm.listeners tid
        (if d ∈ (alookup tm.listeners tid).getD [] then
          (alookup tm.listeners tid).getD []
        else (alookup tm.listeners tid).getD [] ++ [d]) := by
  unfold TriggerManager.add_listener
  cases alookup tm.listeners tid <;> rfl

/-- C8. Starting from any manager whose listener list for the trigger does
not already contain the dag id twice (an invariant of every state the
manager operations can build), two identical `add_listener` calls leave the
dag id with exactly one membership in that trigger's listener list. -/
theorem add_listener_idempotent (tm : TriggerManager) (trigger_id dag_id : String)
    (h : ((alookup tm.listeners trigger_id).getD []).count dag_id ≤ 1) :
    ((alookup ((tm.add_listener trigger_id dag_id).add_listener trigger_id
        dag_id).listeners trigger_id).getD []).count dag_id = 1 := by
  have hin : ∀ b : List String,
      dag_id ∈ (if dag_id ∈ b then b else b ++ [dag_id]) := by
    intro b
    by_cases hm : dag_id ∈ b <;> simp [hm]
  have h2 : alookup (tm.add_listener trigger_id dag_id).listeners trigger_id =
      some (if dag_id ∈ (alookup tm.listeners trigger_id).getD [] then
        (alookup tm.listeners trigger_id).getD []
      else (alookup tm.listeners trigger_id).getD [] ++ [dag_id]) := by
    rw [add_listener_listeners]
    exact alookup_ainsert_self _ _ _
  have h3 : alookup ((tm.add_listener trigger_id dag_id).add_listener
      trigger_id dag_id).listeners trigger_id =
      some (if dag_id ∈ (alookup tm.listeners trigger_id).getD [] then
        (alookup tm.listeners trigger_id).getD []
      else (alookup tm.listeners trigger_id).getD [] ++ [dag_id]) := by
    rw [add_listener_listeners, h2]
    simp only [Option.getD_some]
    rw [if_pos (hin _)]
    exact alookup_ainsert_self _ _ _
  rw [h3]
  simp only [Option.getD_some]
  by_cases hm : dag_id ∈ (alookup tm.listeners trigger_id).getD []
  · rw [if_pos hm]
    have hpos := List.count_pos_iff.mpr hm
    omega
  · rw [if_neg hm, List.count_append, List.count_eq_zero.mpr hm,
      List.count_singleton_self]

/-- Witness for C8 at a concrete manager, trigger id and dag id. -/
theorem add_listener_idempotent_witness :
    ((alookup tmEmpty.listeners "t").getD []).count "dag" ≤ 1 ∧
    ((alookup ((tmEmpty.add_listener "t" "dag").add_listener "t"
        "dag").listeners "t").getD []).count "dag" = 1 :=
  ⟨by decide, add_listener_idempotent tmEmpty "t" "dag" (by decide)⟩

/-! Task-execution step lemmas (C9). -/

theorem taskStep_refl (t : Task) : TaskStep t t := ⟨rfl, Or.inl rfl⟩

theorem taskStep_trans {a b c : Task} (h1 : TaskStep a b)
    (h2 : TaskStep b c) : TaskStep a c := by
  obtain ⟨hid1, h1⟩ := h1
  obtain ⟨hid2, h2⟩ := h2
  refine ⟨hid2.trans hid1, ?_⟩
  rcases h1 with rfl | ⟨ht1, hs1, hp1⟩
  · exact h2
  · rcases h2 with rfl | ⟨ht2, hs2, hp2⟩
    · exact Or.inr ⟨ht1, hs1, hp1⟩
    · exact absurd hp2 hs1

theorem forall2_taskStep_refl (l : List Task) : List.Forall₂ TaskStep l l :=
  List.forall₂_same.mpr (fun t _ => taskStep_refl t)

theorem forall2_taskStep_trans {a b c : List Task}
    (h1 : List.Forall₂ TaskStep a b) (h2 : List.Forall₂ TaskStep b c) :
    List.Forall₂ TaskStep a c := by
  induction h1 generalizing c with
  | nil => cases h2; exact List.Forall₂.nil
  | cons hab h1x ih =>
    cases h2 with
    | cons hbc h2x => exact List.Forall₂.cons (taskStep_trans hab hbc) (ih h2x)

theorem forall2_mem {R : Task → Task → Prop} {l1 l2 : List Task}
    (h : List.Forall₂ R l1 l2) : ∀ x ∈ l1, ∃ y ∈ l2, R x y := by
  induction h with
  | nil => intro x hx; cases hx
  | cons hr hx ih =>
    intro x hmem
    rcases List.mem_cons.mp hmem with rfl | hmem
    · exact ⟨_, List.mem_cons_self _ _, hr⟩
    · obtain ⟨y, hy, hxy⟩ := ih x hmem
      exact ⟨y, List.mem_cons_of_mem _ hy, hxy⟩

theorem execute_fst_task_id (t : Task) (now : Nat) :
    (t.execute now).1.task_id = t.task_id := by
  rcases hf : t.func t.try_count with v | e <;> simp [Task.execute, hf]

theorem execute_fst_try_count (t : Task) (now : Nat) :
    (t.execute now).1.try_count = t.try_count + 1 := by
  rcases hf : t.func t.try_count with v | e <;> simp [Task.execute, hf]

theorem execute_fst_status (t : Task) (now : Nat) :
    (t.execute now).1.status = TaskStatus.SUCCESS ∨
      (t.execute now).1.status = TaskStatus.FAILED := by
  rcases hf : t.func t.try_count with v | e <;> simp [Task.execute, hf]

theorem execute_taskStep (t : Task) (now : Nat)
    (hp : t.status = TaskStatus.PENDING) : TaskStep t (t.execute now).1 := by
  refine ⟨execute_fst_task_id t now,
    Or.inr ⟨execute_fst_try_count t now, ?_, hp⟩⟩
  rcases execute_fst_status t now with h | h <;> rw [h] <;>
    intro hc <;> cases hc

theorem eq_of_mem_of_same_id {tasks : List Task}
    (hids : (taskIds tasks).Nodup) {u v : Task} (hu : u ∈ tasks)
    (hv : v ∈ tasks) (hid : u.task_id = v.task_id) : u = v := by
  have h2 : (tasks.map Task.task_id).Nodup := hids
  exact List.inj_on_of_nodup_map h2 hu hv hid

theorem forall2_map_of_mem {g : Task → Task} {l : List Task}
    (h : ∀ u ∈ l, TaskStep u (g u)) : List.Forall₂ TaskStep l (l.map g) := by
  induction l with
  | nil => exact List.Forall₂.nil
  | cons a t ih =>
    exact List.Forall₂.cons (h a (List.mem_cons_self a t))
      (ih (fun u hu => h u (List.mem_cons_of_mem a hu)))

theorem taskIds_map_update {g : Task → Task} {l : List Task}
    (h : ∀ u ∈ l, (g u).task_id = u.task_id) :
    taskIds (l.map g) = taskIds l := by
  unfold taskIds
  rw [List.map_map]
  exact List.map_congr_left (fun u hu => h u hu)

theorem update_step (tasks : List Task) (b t2 : Task)
    (hids : (taskIds tasks).Nodup) (hbmem : b ∈ tasks)
    (hstep : TaskStep b t2) (hid2 : t2.task_id = b.task_id) :
    List.Forall₂ TaskStep tasks
      (tasks.map (fun u => if u.task_id = t2.task_id then t2 else u)) ∧
    taskIds (tasks.map (fun u => if u.task_id = t2.task_id then t2 else u)) =
      taskIds tasks := by
  constructor
  · refine forall2_map_of_mem (fun u hu => ?_)
    by_cases he : u.task_id = t2.task_id
    · have hub : u = b :=
        eq_of_mem_of_same_id hids hu hbmem (by rw [he, hid2])
      simp only [if_pos he]
      rw [hub]
      exact hstep
    · simp only [if_neg he]
      exact taskStep_refl u
  · refine taskIds_map_update (fun u hu => ?_)
    by_cases he : u.task_id = t2.task_id
    · simp [if_pos he, he]
    · simp [if_neg he]

theorem execBatch_forall2 (now : Nat) :
    ∀ (batch tasks : List Task) (completed failed : List String),
    (taskIds tasks).Nodup →
    (∀ b ∈ batch, b ∈ tasks ∧ b.status = TaskStatus.PENDING) →
    (taskIds batch).Nodup →
    List.Forall₂ TaskStep tasks
        (execBatch now batch tasks completed failed).1 ∧
      taskIds (execBatch now batch tasks completed failed).1 =
        taskIds tasks := by
  intro batch
  induction batch with
  | nil =>
    intro tasks c f _ _ _
    exact ⟨forall2_taskStep_refl tasks, rfl⟩
  | cons b rest ih =>
    intro tasks c f hids hb hnb
    obtain ⟨hbmem, hbpend⟩ := hb b (List.mem_cons_self b rest)
    rcases hx : b.execute now with ⟨t2, res⟩
    have hid2 : t2.task_id = b.task_id := by
      have hq := execute_fst_task_id b now
      rw [hx] at hq
      exact hq
    have hstep : TaskStep b t2 := by
      have hq := execute_taskStep b now hbpend
      rw [hx] at hq
      exact hq
    obtain ⟨hf2, hide⟩ := update_step tasks b t2 hids hbmem hstep hid2
    have hnbtail : (taskIds rest).Nodup :=
      (List.nodup_cons.mp (by simpa [taskIds] using hnb)).2
    have hbhead : b.task_id ∉ taskIds rest :=
      (List.nodup_cons.mp (by simpa [taskIds] using hnb)).1
    have hrest : ∀ u ∈ rest,
        u ∈ tasks.map (fun v => if v.task_id = t2.task_id then t2 else v) ∧
          u.status = TaskStatus.PENDING := by
      intro u hu
      obtain ⟨hm, hp⟩ := hb u (List.mem_cons_of_mem b hu)
      have hne : ¬ (u.task_id = t2.task_id) := by
        rw [hid2]
        intro he
        exact hbhead (he ▸ List.mem_map_of_mem Task.task_id hu)
      have hgu : (fun v => if v.task_id = t2.task_id then t2 else v) u = u := by
        simp [hne]
      exact ⟨hgu ▸ List.mem_map_of_mem _ hm, hp⟩
    have hids2 : (taskIds (tasks.map
        (fun v => if v.task_id = t2.task_id then t2 else v))).Nodup := by
      rw [hide]
      exact hids
    cases res with
    | ok v =>
      have hrec := ih (tasks.map
          (fun u => if u.task_id = t2.task_id then t2 else u))
        (c ++ [b.task_id]) f hids2 hrest hnbtail
      have hgoal : execBatch now (b :: rest) tasks c f =
          execBatch now rest (tasks.map
            (fun u => if u.task_id = t2.task_id then t2 else u))
            (c ++ [b.task_id]) f := by
        simp only [execBatch, hx]
      rw [hgoal]
      exact ⟨forall2_taskStep_trans hf2 hrec.1, hrec.2.trans hide⟩
    | error msg =>
      have hrec := ih (tasks.map
          (fun u => if u.task_id = t2.task_id then t2 else u))
        c (f ++ [b.task_id]) hids2 hrest hnbtail
      have hgoal : execBatch now (b :: rest) tasks c f =
          execBatch now rest (tasks.map
            (fun u => if u.task_id = t2.task_id then t2 else u))
            c (f ++ [b.task_id]) := by
        simp only [execBatch, hx]
      rw [hgoal]
      exact ⟨forall2_taskStep_trans hf2 hrec.1, hrec.2.trans hide⟩

theorem runLoop_forall2 (now max_parallel : Nat) :
    ∀ (fuel : Nat) (tasks : List Task) (completed failed : List String)
      (tasksF : List Task) (cF fF : List String),
    (taskIds tasks).Nodup →
    runLoop now max_parallel fuel tasks completed failed =
      some (tasksF, cF, fF) →
    List.Forall₂ TaskStep tasks tasksF := by
  intro fuel
  induction fuel with
  | zero =>
    intro tasks c f tF cF fF _ h
    exact Option.noConfusion h
  | succ fuel ih =>
    intro tasks c f tF cF fF hids h
    simp only [runLoop] at h
    by_cases hcond : c.length + f.length < tasks.length
    · rw [if_pos hcond] at h
      have hbatch1 : ∀ b ∈ (getReady tasks c).take max_parallel,
          b ∈ tasks ∧ b.status = TaskStatus.PENDING := by
        intro b hbm
        have hm := mem_getReady.mp (List.mem_of_mem_take hbm)
        exact ⟨hm.1, hm.2.1⟩
      have hbatch2 : (taskIds ((getReady tasks c).take max_parallel)).Nodup := by
        have hsub : List.Sublist ((getReady tasks c).take max_parallel) tasks :=
          List.Sublist.trans (List.take_sublist _ _) (getReady_sublist tasks c)
        exact hids.sublist (hsub.map Task.task_id)
      obtain ⟨hf2, hide⟩ := execBatch_forall2 now
        ((getReady tasks c).take max_parallel) tasks c f hids hbatch1 hbatch2
      refine forall2_taskStep_trans hf2 (ih _ _ _ tF cF fF ?_ h)
      rw [hide]
      exact hids
    · rw [if_neg hcond] at h
      obtain ⟨rfl, rfl, rfl⟩ : tasks = tF ∧ c = cF ∧ f = fF := by
        simpa using h
      exact forall2_taskStep_refl tasks

/-- C9. Within one terminating `run_dag` call, each task is executed at
most once: `get_ready_tasks` only selects PENDING tasks and `execute`
permanently moves a task out of PENDING, so every task's attempt counter
grows by at most one over the run. -/
theorem run_dag_executes_each_task_at_most_once (e : WorkflowEngine)
    (dag_id : String) (max_parallel : Nat) (run_id : String) (now fuel : Nat)
    (d : DAG) (rid : String) (e2 : WorkflowEngine)
    (hd : alookup e.dags dag_id = some d)
    (hids : (taskIds d.tasks).Nodup)
    (h : e.run_dag dag_id max_parallel run_id now fuel =
      RunResult.finished rid e2) :
    ∃ d2, alookup e2.dags dag_id = some d2 ∧
      ∀ t ∈ d.tasks, ∃ t2 ∈ d2.tasks,
        t2.task_id = t.task_id ∧ t2.try_count ≤ t.try_count + 1 := by
  unfold WorkflowEngine.run_dag at h
  rw [hd] at h
  dsimp only at h
  cases hl : runLoop now max_parallel fuel d.tasks [] [] with
  | none =>
    rw [hl] at h
    exact RunResult.noConfusion h
  | some res =>
    obtain ⟨tasksF, completed, failed⟩ := res
    rw [hl] at h
    injection h with h1 h2
    subst h2
    have hforall :=
      runLoop_forall2 now max_parallel fuel d.tasks [] [] tasksF
        completed failed hids hl
    refine ⟨_, alookup_ainsert_self _ _ _, ?_⟩
    intro t ht
    obtain ⟨t2, ht2, hstep⟩ := forall2_mem hforall t ht
    refine ⟨t2, ht2, hstep.1, ?_⟩
    rcases hstep.2 with rfl | ⟨htc, _, _⟩
    · omega
    · omega

/-- Witness for C9: in the concrete failing one-task run, the single task
ends with at most one new attempt. -/
theorem run_dag_executes_each_task_at_most_once_witness :
    ∃ e2 d2 t2,
      engineEx.run_dag "d" 4 "r1" 0 2 = RunResult.finished "r1" e2 ∧
      alookup e2.dags "d" = some d2 ∧ t2 ∈ d2.tasks ∧
      t2.task_id = "a" ∧ t2.try_count ≤ failT.try_count + 1 := by
  obtain ⟨d2, hd2, hall⟩ := run_dag_executes_each_task_at_most_once engineEx
    "d" 4 "r1" 0 2 { dag_id := "d", tasks := [failT], execution_order := [] }
    "r1" _ rfl (by decide) rfl
  obtain ⟨t2, ht2, hid, htc⟩ := hall failT (List.mem_cons_self _ _)
  refine ⟨_, d2, t2, rfl, hd2, ht2, ?_, htc⟩
  exact hid.trans rfl


/-! Kahn topological-sort development (C1, C6). -/

theorem mem_taskIds {x : String} {l : List Task} :
    x ∈ taskIds l ↔ ∃ t ∈ l, t.task_id = x := by
  simp [taskIds]

theorem taskIds_filter_subset (tasks : List Task) (p : Task → Bool) :
    ∀ x ∈ taskIds (tasks.filter p), x ∈ taskIds tasks := by
  intro x hx
  exact ((List.filter_sublist tasks).map Task.task_id).subset hx

theorem taskIds_filter_nodup (tasks : List Task)
    (hids : (taskIds tasks).Nodup) (p : Task → Bool) :
    (taskIds (tasks.filter p)).Nodup :=
  hids.sublist ((List.filter_sublist tasks).map Task.task_id)

theorem taskIds_filter_mem {tasks : List Task}
    (hids : (taskIds tasks).Nodup) {t : Task} (ht : t ∈ tasks)
    (p : Task → Bool) :
    t.task_id ∈ taskIds (tasks.filter p) ↔ p t = true := by
  constructor
  · intro h
    obtain ⟨u, hu, hid⟩ := mem_taskIds.mp h
    have humem := List.mem_filter.mp hu
    have hut : u = t := eq_of_mem_of_same_id hids humem.1 ht hid
    exact hut ▸ humem.2
  · intro hp
    exact mem_taskIds.mpr ⟨t, List.mem_filter.mpr ⟨ht, hp⟩, rfl⟩

theorem length_filter_not_split (l : List String) (p : String → Bool) :
    (l.filter p).length + (l.filter (fun a => ! p a)).length = l.length := by
  induction l with
  | nil => rfl
  | cons a rest ih =>
    by_cases h : p a = true
    · simp [List.filter_cons, h, ← ih]
      omega
    · simp [List.filter_cons, h, Bool.not_eq_true _ ▸ h, ← ih]
      omega

theorem bumpOne_apply (ids : List String) (tid : String) :
    ∀ (deps : List String) (deg : String → Int) (x : String),
    bumpOne ids tid deps deg x =
      if x = tid then
        deg tid + ((deps.filter (fun d => decide (d ∈ ids))).length : Int)
      else deg x := by
  intro deps
  induction deps with
  | nil =>
    intro deg x
    by_cases hx : x = tid <;> simp [bumpOne, hx]
  | cons d rest ih =>
    intro deg x
    by_cases hd : d ∈ ids
    · rw [bumpOne, if_pos hd, ih]
      by_cases hx : x = tid <;>
        simp only [hx, if_pos, if_neg, List.filter_cons, hd, decide_True,
          if_true] <;> simp [hx]
      omega
    · rw [bumpOne, if_neg hd, ih]
      by_cases hx : x = tid <;> simp [hx, List.filter_cons, hd]

theorem initLoop_apply (ids : List String) :
    ∀ (tasks : List Task) (deg : String → Int) (x : String),
    initLoop ids tasks deg x =
      deg x + ((tasks.filter (fun t => decide (t.task_id = x))).map
        (fun t =>
          ((t.depends_on.filter (fun d => decide (d ∈ ids))).length : Int))).sum := by
  intro tasks
  induction tasks with
  | nil => intro deg x; simp [initLoop]
  | cons t rest ih =>
    intro deg x
    rw [initLoop, ih, bumpOne_apply]
    by_cases hx : t.task_id = x
    · rw [hx, if_pos rfl, List.filter_cons, if_pos (by simpa using hx)]
      simp only [List.map_cons, List.sum_cons]
      ring
    · rw [if_neg (fun he => hx he.symm), List.filter_cons,
        if_neg (by simpa using hx)]

theorem filter_id_singleton {tasks : List Task}
    (hids : (taskIds tasks).Nodup) {t : Task} (ht : t ∈ tasks) :
    tasks.filter (fun u => decide (u.task_id = t.task_id)) = [t] := by
  induction tasks with
  | nil => cases ht
  | cons a rest ih =>
    have hnd : a.task_id ∉ taskIds rest ∧ (taskIds rest).Nodup := by
      have := hids
      simp only [taskIds, List.map_cons, List.nodup_cons] at this
      exact ⟨fun hm => this.1 (by simpa [taskIds] using hm), by
        simpa [taskIds] using this.2⟩
    rcases List.mem_cons.mp ht with rfl | hmem
    · rw [List.filter_cons, if_pos (by simp)]
      have hrest : rest.filter (fun u => decide (u.task_id = t.task_id)) = [] := by
        rw [List.filter_eq_nil_iff]
        intro u hu
        simp only [decide_eq_true_eq]
        intro he
        exact hnd.1 (he ▸ List.mem_map_of_mem Task.task_id hu)
      rw [hrest]
    · have hne : ¬ (a.task_id = t.task_id) := by
        intro he
        exact hnd.1 (he ▸ List.mem_map_of_mem Task.task_id hmem)
      rw [List.filter_cons, if_neg (by simpa using hne)]
      exact ih hnd.2 hmem

theorem initInDegree_eq {tasks : List Task} (hids : (taskIds tasks).Nodup)
    {t : Task} (ht : t ∈ tasks) :
    initInDegree tasks t.task_id =
      ((presentDeps (taskIds tasks) t).length : Int) := by
  rw [initInDegree, initLoop_apply, filter_id_singleton hids ht]
  simp [presentDeps]


theorem processCurrent_fst (current : String) :
    ∀ (tasks : List Task) (deg : String → Int),
    (taskIds tasks).Nodup →
    ∀ x, (processCurrent current tasks deg).1 x =
      if x ∈ taskIds (tasks.filter (fun t => decide (current ∈ t.depends_on)))
      then deg x - 1 else deg x := by
  intro tasks
  induction tasks with
  | nil => intro deg _ x; simp [processCurrent, taskIds]
  | cons t rest ih =>
    intro deg hids x
    have hnd : t.task_id ∉ taskIds rest ∧ (taskIds rest).Nodup := by
      have h0 := hids
      simp only [taskIds, List.map_cons, List.nodup_cons] at h0
      exact ⟨fun hm => h0.1 (by simpa [taskIds] using hm), by
        simpa [taskIds] using h0.2⟩
    by_cases hc : current ∈ t.depends_on
    · have hfilter : (t :: rest).filter (fun u => decide (current ∈ u.depends_on))
          = t :: rest.filter (fun u => decide (current ∈ u.depends_on)) := by
        rw [List.filter_cons, if_pos (by simpa using hc)]
      rw [processCurrent, if_pos hc]
      dsimp only
      rw [ih _ hnd.2, hfilter]
      have hmemiff : x ∈ taskIds (t :: rest.filter
            (fun u => decide (current ∈ u.depends_on))) ↔
          x = t.task_id ∨ x ∈ taskIds (rest.filter
            (fun u => decide (current ∈ u.depends_on))) := by
        simp only [taskIds, List.map_cons, List.mem_cons]
      by_cases hx : x = t.task_id
      · have hxnot : x ∉ taskIds (rest.filter
            (fun u => decide (current ∈ u.depends_on))) := by
          intro hm
          exact hnd.1 (hx ▸ taskIds_filter_subset rest _ x hm)
        rw [if_neg hxnot, if_pos (hmemiff.mpr (Or.inl hx)), hx]
        simp
      · by_cases hm : x ∈ taskIds (rest.filter
            (fun u => decide (current ∈ u.depends_on)))
        · rw [if_pos hm, if_pos (hmemiff.mpr (Or.inr hm))]
          simp [hx]
        · rw [if_neg hm, if_neg (fun hmm => (hmemiff.mp hmm).elim hx hm)]
          simp [hx]
    · have hfilter : (t :: rest).filter (fun u => decide (current ∈ u.depends_on))
          = rest.filter (fun u => decide (current ∈ u.depends_on)) := by
        rw [List.filter_cons, if_neg (by simpa using hc)]
      rw [processCurrent, if_neg hc, ih _ hnd.2, hfilter]

theorem processCurrent_snd (current : String) :
    ∀ (tasks : List Task) (deg : String → Int),
    (taskIds tasks).Nodup →
    (processCurrent current tasks deg).2 =
      taskIds (tasks.filter (fun t =>
        decide (current ∈ t.depends_on) && decide (deg t.task_id = 1))) := by
  intro tasks
  induction tasks with
  | nil => intro deg _; rfl
  | cons t rest ih =>
    intro deg hids
    have hnd : t.task_id ∉ taskIds rest ∧ (taskIds rest).Nodup := by
      have h0 := hids
      simp only [taskIds, List.map_cons, List.nodup_cons] at h0
      exact ⟨fun hm => h0.1 (by simpa [taskIds] using hm), by
        simpa [taskIds] using h0.2⟩
    by_cases hc : current ∈ t.depends_on
    · rw [processCurrent, if_pos hc]
      dsimp only
      rw [ih _ hnd.2]
      have hcongr : rest.filter (fun u =>
          decide (current ∈ u.depends_on) &&
            decide ((if u.task_id = t.task_id then deg t.task_id - 1
              else deg u.task_id) = 1)) =
          rest.filter (fun u =>
            decide (current ∈ u.depends_on) && decide (deg u.task_id = 1)) := by
        refine List.filter_congr (fun u hu => ?_)
        have hne : ¬ (u.task_id = t.task_id) := by
          intro he
          exact hnd.1 (he ▸ List.mem_map_of_mem Task.task_id hu)
        rw [if_neg hne]
      rw [hcongr]
      by_cases hz : deg t.task_id - 1 = 0
      · have hfilter : (t :: rest).filter (fun u =>
            decide (current ∈ u.depends_on) && decide (deg u.task_id = 1)) =
            t :: rest.filter (fun u =>
              decide (current ∈ u.depends_on) && decide (deg u.task_id = 1)) := by
          rw [List.filter_cons, if_pos (by simp [hc]; omega)]
        rw [if_pos hz, hfilter]
        rfl
      · have hfilter : (t :: rest).filter (fun u =>
            decide (current ∈ u.depends_on) && decide (deg u.task_id = 1)) =
            rest.filter (fun u =>
              decide (current ∈ u.depends_on) && decide (deg u.task_id = 1)) := by
          rw [List.filter_cons, if_neg (by simp [hc]; omega)]
        rw [if_neg hz, hfilter]
    · rw [processCurrent, if_neg hc, ih _ hnd.2]
      rw [List.filter_cons, if_neg (by simp [hc])]


theorem takeWhile_append_of_mem {l : List String} {t : String} (h : t ∈ l)
    (l2 : List String) :
    (l ++ l2).takeWhile (fun x => decide (x ≠ t)) =
      l.takeWhile (fun x => decide (x ≠ t)) := by
  induction l with
  | nil => cases h
  | cons a rest ih =>
    by_cases ha : a = t
    · have hpa : ¬ ((fun x => decide (x ≠ t)) a = true) := by simpa using ha
      rw [List.cons_append, List.takeWhile_cons, List.takeWhile_cons,
        if_neg hpa, if_neg hpa]
    · have hm : t ∈ rest := by
        rcases List.mem_cons.mp h with heq | hm
        · exact absurd heq.symm ha
        · exact hm
      have hpa : (fun x => decide (x ≠ t)) a = true := by simpa using ha
      rw [List.cons_append, List.takeWhile_cons, List.takeWhile_cons,
        if_pos hpa, if_pos hpa, ih hm]

theorem takeWhile_append_self {l : List String} {c : String} (h : c ∉ l)
    (l2 : List String) :
    (l ++ c :: l2).takeWhile (fun x => decide (x ≠ c)) = l := by
  induction l with
  | nil =>
    have hpc : ¬ ((fun x => decide (x ≠ c)) c = true) := by simp
    rw [List.nil_append, List.takeWhile_cons, if_neg hpc]
  | cons a rest ih =>
    have ha : ¬ (a = c) := fun he => h (he ▸ List.mem_cons_self a rest)
    have hr : c ∉ rest := fun hm => h (List.mem_cons_of_mem a hm)
    have hpa : (fun x => decide (x ≠ c)) a = true := by simpa using ha
    rw [List.cons_append, List.takeWhile_cons, if_pos hpa, ih hr]

theorem indexOf_lt_of_mem_takeWhile {r : List String} {d t : String}
    (h : d ∈ r.takeWhile (fun x => decide (x ≠ t))) (htr : t ∈ r) :
    r.indexOf d < r.indexOf t := by
  induction r with
  | nil => cases htr
  | cons a rest ih =>
    by_cases hat : a = t
    · have hpa : ¬ ((fun x => decide (x ≠ t)) a = true) := by simpa using hat
      rw [List.takeWhile_cons, if_neg hpa] at h
      cases h
    · have hpa : (fun x => decide (x ≠ t)) a = true := by simpa using hat
      rw [List.takeWhile_cons, if_pos hpa] at h
      have htrest : t ∈ rest := by
        rcases List.mem_cons.mp htr with heq | hm
        · exact absurd heq.symm hat
        · exact hm
      rw [List.indexOf_cons_ne rest hat]
      rcases List.mem_cons.mp h with rfl | hm
      · rw [List.indexOf_cons_self]
        omega
      · by_cases hda : d = a
        · rw [hda, List.indexOf_cons_self]
          omega
        · rw [List.indexOf_cons_ne rest (fun he => hda he.symm)]
          have := ih hm htrest
          omega

theorem length_filter_mem_snoc {l order : List String} {c : String}
    (hl : l.Nodup) (hc : c ∉ order) :
    (l.filter (fun x => decide (x ∈ order ++ [c]))).length =
      (l.filter (fun x => decide (x ∈ order))).length +
        (if c ∈ l then 1 else 0) := by
  induction l with
  | nil => simp
  | cons a rest ih =>
    have hnd := List.nodup_cons.mp hl
    have ihr := ih hnd.2
    by_cases hac : a = c
    · subst hac
      rw [List.filter_cons, List.filter_cons, if_pos (by simp),
        if_neg (by simpa using hc), if_pos (List.mem_cons_self a rest)]
      have hnotin : ¬ (a ∈ rest) := hnd.1
      rw [List.length_cons, ihr, if_neg hnotin]
    · have hmix : (a ∈ order ++ [c]) ↔ (a ∈ order) := by
        simp [hac]
      have hca : ¬ (c = a) := fun he => hac he.symm
      have hcm : (c ∈ a :: rest) ↔ (c ∈ rest) := by
        simp [List.mem_cons, hca]
      by_cases ho : a ∈ order
      · rw [List.filter_cons, List.filter_cons,
          if_pos (by simpa using hmix.mpr ho), if_pos (by simpa using ho),
          List.length_cons, List.length_cons, ihr, if_congr hcm rfl rfl]
        omega
      · rw [List.filter_cons, List.filter_cons,
          if_neg (by simpa using fun hmm => ho (hmix.mp hmm)),
          if_neg (by simpa using ho), ihr, if_congr hcm rfl rfl]


theorem kahnLoop_invariant (tasks : List Task) (hids : (taskIds tasks).Nodup) :
    ∀ (fuel : Nat) (deg : String → Int) (queue order : List String),
    tasks.length ≤ fuel + order.length →
    (∀ x ∈ queue, x ∈ taskIds tasks) →
    (∀ x ∈ order, x ∈ taskIds tasks) →
    (order ++ queue).Nodup →
    (∀ t ∈ tasks, deg t.task_id =
      ((presentDeps (taskIds tasks) t).length : Int) -
        (((presentDeps (taskIds tasks) t).dedup.filter
          (fun x => decide (x ∈ order))).length : Int)) →
    (∀ t ∈ tasks, t.task_id ∈ queue →
      ∀ d ∈ presentDeps (taskIds tasks) t, d ∈ order) →
    (∀ t ∈ tasks, t.task_id ∈ order →
      ∀ d ∈ presentDeps (taskIds tasks) t,
        d ∈ order.takeWhile (fun x => decide (x ≠ t.task_id))) →
    (∀ t ∈ tasks, t.task_id ∉ order → t.task_id ∉ queue →
      deg t.task_id ≠ 0) →
    (kahnLoop tasks fuel deg queue order).Nodup ∧
    (∀ x ∈ kahnLoop tasks fuel deg queue order, x ∈ taskIds tasks) ∧
    (∀ t ∈ tasks, t.task_id ∈ kahnLoop tasks fuel deg queue order →
      ∀ d ∈ presentDeps (taskIds tasks) t,
        d ∈ (kahnLoop tasks fuel deg queue order).takeWhile
          (fun x => decide (x ≠ t.task_id))) ∧
    (∀ t ∈ tasks, (presentDeps (taskIds tasks) t).Nodup →
      t.task_id ∉ kahnLoop tasks fuel deg queue order →
      ∃ d ∈ presentDeps (taskIds tasks) t,
        d ∉ kahnLoop tasks fuel deg queue order) := by
  intro fuel
  induction fuel with
  | zero =>
    intro deg queue order hfuel hqsub hosub hnd hdeg hq hord hmiss
    have hres : kahnLoop tasks 0 deg queue order = order := rfl
    rw [hres]
    refine ⟨(List.nodup_append.mp hnd).1, hosub, hord, ?_⟩
    intro t ht _ hnot
    exfalso
    have hsp : order.Subperm (taskIds tasks) :=
      (List.nodup_append.mp hnd).1.subperm hosub
    have hlene : (taskIds tasks).length ≤ order.length := by
      have h1 : (taskIds tasks).length = tasks.length := List.length_map _ _
      omega
    have hperm := hsp.perm_of_length_le hlene
    exact hnot (hperm.mem_iff.mpr (List.mem_map_of_mem Task.task_id ht))
  | succ fuel ih =>
    intro deg queue order hfuel hqsub hosub hnd hdeg hq hord hmiss
    cases queue with
    | nil =>
      have hres : kahnLoop tasks (fuel + 1) deg [] order = order := rfl
      rw [hres]
      have hndo : order.Nodup := by simpa using hnd
      refine ⟨hndo, hosub, hord, ?_⟩
      intro t ht hpdnd hnot
      have hdegt := hmiss t ht hnot (List.not_mem_nil _)
      have hdegeq := hdeg t ht
      by_contra hall
      push_neg at hall
      have hded : (presentDeps (taskIds tasks) t).dedup =
          presentDeps (taskIds tasks) t := List.Nodup.dedup hpdnd
      have hfe : (presentDeps (taskIds tasks) t).filter
          (fun x => decide (x ∈ order)) = presentDeps (taskIds tasks) t :=
        List.filter_eq_self.mpr (fun a ha => by simpa using hall a ha)
      rw [hded, hfe] at hdegeq
      omega
    | cons current rest =>
      have hres : kahnLoop tasks (fuel + 1) deg (current :: rest) order =
          kahnLoop tasks fuel (processCurrent current tasks deg).1
            (rest ++ (processCurrent current tasks deg).2)
            (order ++ [current]) := rfl
      rw [hres]
      have hpf := processCurrent_fst current tasks deg hids
      have hps := processCurrent_snd current tasks deg hids
      rw [hps]
      have hcur_ids : current ∈ taskIds tasks :=
        hqsub current (List.mem_cons_self _ _)
      have hndparts := List.nodup_append.mp hnd
      have hcur_order : current ∉ order :=
        fun hm => hndparts.2.2 hm (List.mem_cons_self _ _)
      have hcr := List.nodup_cons.mp hndparts.2.1
      have hmemQ : ∀ t ∈ tasks,
          t.task_id ∈ taskIds (tasks.filter (fun u =>
            decide (current ∈ u.depends_on) && decide (deg u.task_id = 1))) ↔
          (current ∈ t.depends_on ∧ deg t.task_id = 1) := by
        intro t ht
        rw [taskIds_filter_mem hids ht]
        simp
      have hnewQ_prop : ∀ x ∈ taskIds (tasks.filter (fun u =>
          decide (current ∈ u.depends_on) && decide (deg u.task_id = 1))),
          ∃ u ∈ tasks, u.task_id = x ∧ current ∈ u.depends_on ∧
            deg u.task_id = 1 := by
        intro x hx
        obtain ⟨u, hu, huid⟩ := mem_taskIds.mp hx
        have h2 := List.mem_filter.mp hu
        refine ⟨u, h2.1, huid, ?_⟩
        simpa using h2.2
      have hcur_pd : ∀ {u : Task}, u ∈ tasks → current ∈ u.depends_on →
          current ∈ presentDeps (taskIds tasks) u := by
        intro u hu hcu
        exact List.mem_filter.mpr ⟨hcu, by simpa using hcur_ids⟩
      have hnewQ_fresh : ∀ x ∈ taskIds (tasks.filter (fun u =>
          decide (current ∈ u.depends_on) && decide (deg u.task_id = 1))),
          x ∉ order ∧ ¬ (x = current) ∧ x ∉ rest := by
        intro x hx
        obtain ⟨u, hu, huid, hcu, hdu⟩ := hnewQ_prop x hx
        have hcpd := hcur_pd hu hcu
        refine ⟨?_, ?_, ?_⟩
        · intro hxo
          have hin := hord u hu (by rw [huid]; exact hxo) current hcpd
          exact hcur_order ((List.takeWhile_sublist _).subset hin)
        · intro hxc
          have hin := hq u hu (by rw [huid, hxc]; exact List.mem_cons_self _ _)
            current hcpd
          exact hcur_order hin
        · intro hxr
          have hin := hq u hu (by rw [huid]; exact List.mem_cons_of_mem _ hxr)
            current hcpd
          exact hcur_order hin
      refine ih (processCurrent current tasks deg).1 _ (order ++ [current])
        ?_ ?_ ?_ ?_ ?_ ?_ ?_ ?_
      · rw [List.length_append, List.length_singleton]
        omega
      · intro x hx
        rcases List.mem_append.mp hx with hx | hx
        · exact hqsub x (List.mem_cons_of_mem _ hx)
        · exact taskIds_filter_subset tasks _ x hx
      · intro x hx
        rcases List.mem_append.mp hx with hx | hx
        · exact hosub x hx
        · rw [List.mem_singleton.mp hx]
          exact hcur_ids
      · have hassoc : (order ++ [current]) ++
            (rest ++ taskIds (tasks.filter (fun u =>
              decide (current ∈ u.depends_on) && decide (deg u.task_id = 1)))) =
            (order ++ current :: rest) ++ taskIds (tasks.filter (fun u =>
              decide (current ∈ u.depends_on) && decide (deg u.task_id = 1))) := by
          simp [List.append_assoc]
        rw [hassoc, List.nodup_append]
        refine ⟨hnd, taskIds_filter_nodup tasks hids _, ?_⟩
        intro x hxleft hxQ
        obtain ⟨hno, hnc, hnr⟩ := hnewQ_fresh x hxQ
        rcases List.mem_append.mp hxleft with hx | hx
        · exact hno hx
        · rcases List.mem_cons.mp hx with heq | hx
          · exact hnc heq
          · exact hnr hx
      · intro t ht
        rw [hpf t.task_id]
        have hsnoc := @length_filter_mem_snoc
          ((presentDeps (taskIds tasks) t).dedup) order current
          (List.nodup_dedup _) hcur_order
        have hmemdec : current ∈ (presentDeps (taskIds tasks) t).dedup ↔
            current ∈ t.depends_on := by
          rw [List.mem_dedup]
          constructor
          · intro h
            exact (List.mem_filter.mp h).1
          · intro h
            exact List.mem_filter.mpr ⟨h, by simpa using hcur_ids⟩
        by_cases hct : current ∈ t.depends_on
        · have hin : t.task_id ∈ taskIds (tasks.filter (fun u =>
              decide (current ∈ u.depends_on))) :=
            (taskIds_filter_mem hids ht _).mpr (by simpa using hct)
          rw [if_pos hin, hdeg t ht, hsnoc, if_pos (hmemdec.mpr hct)]
          push_cast
          ring
        · have hnin : t.task_id ∉ taskIds (tasks.filter (fun u =>
              decide (current ∈ u.depends_on))) :=
            fun hm => hct (by simpa using (taskIds_filter_mem hids ht _).mp hm)
          rw [if_neg hnin, hdeg t ht, hsnoc, if_neg
            (fun hm => hct (hmemdec.mp hm))]
          push_cast
          ring
      · intro t ht hmem d hd
        rcases List.mem_append.mp hmem with hx | hx
        · exact List.mem_append.mpr
            (Or.inl (hq t ht (List.mem_cons_of_mem _ hx) d hd))
        · obtain ⟨hct, hdeg1⟩ := (hmemQ t ht).mp hx
          by_contra hdnot
          rw [List.mem_append] at hdnot
          push_neg at hdnot
          have hdo : d ∉ order := hdnot.1
          have hdc : ¬ (d = current) := by
            intro he
            exact hdnot.2 (by rw [he]; exact List.mem_singleton.mpr rfl)
          have hcpd : current ∈ (presentDeps (taskIds tasks) t).dedup :=
            List.mem_dedup.mpr (hcur_pd ht hct)
          have hdpd : d ∈ (presentDeps (taskIds tasks) t).dedup :=
            List.mem_dedup.mpr hd
          have hsubl : [current, d].Subperm
              ((presentDeps (taskIds tasks) t).dedup.filter
                (fun x => ! decide (x ∈ order))) := by
            refine List.Nodup.subperm ?_ ?_
            · refine List.nodup_cons.mpr ⟨?_, List.nodup_singleton d⟩
              intro hm
              exact hdc ((List.mem_singleton.mp hm).symm)
            · intro x hxm
              rcases List.mem_cons.mp hxm with rfl | hxm
              · exact List.mem_filter.mpr ⟨hcpd, by simpa using hcur_order⟩
              · rcases List.mem_cons.mp hxm with rfl | hxm
                · exact List.mem_filter.mpr ⟨hdpd, by simpa using hdo⟩
                · cases hxm
          have h2le : 2 ≤ ((presentDeps (taskIds tasks) t).dedup.filter
              (fun x => ! decide (x ∈ order))).length := by
            have hlen2 := hsubl.length_le
            simpa using hlen2
          have hsplit : ((presentDeps (taskIds tasks) t).dedup.filter
                (fun x => decide (x ∈ order))).length +
              ((presentDeps (taskIds tasks) t).dedup.filter
                (fun x => ! decide (x ∈ order))).length =
              ((presentDeps (taskIds tasks) t).dedup).length :=
            length_filter_not_split _ _
          have hdedle : ((presentDeps (taskIds tasks) t).dedup).length ≤
              (presentDeps (taskIds tasks) t).length :=
            (List.dedup_sublist _).length_le
          have hdegeq := hdeg t ht
          omega
      · intro t ht hmem d hd
        rcases List.mem_append.mp hmem with hx | hx
        · rw [takeWhile_append_of_mem hx]
          exact hord t ht hx d hd
        · have hxc : t.task_id = current := List.mem_singleton.mp hx
          have hdo : d ∈ order := hq t ht
            (by rw [hxc]; exact List.mem_cons_self _ _) d hd
          rw [hxc]
          have hteq : (order ++ [current]).takeWhile
              (fun x => decide (x ≠ current)) = order :=
            takeWhile_append_self hcur_order []
          rw [hteq]
          exact hdo
      · intro t ht hno hnq
        rw [List.mem_append] at hno hnq
        push_neg at hno hnq
        have hnotc : ¬ (t.task_id = current) := by
          intro he
          exact hno.2 (by rw [he]; exact List.mem_singleton.mpr rfl)
        have holdmiss := hmiss t ht hno.1 (by
          intro hm
          rcases List.mem_cons.mp hm with he | hm
          · exact hnotc he
          · exact hnq.1 hm)
        have hdegeq := hdeg t ht
        have hfle : ((presentDeps (taskIds tasks) t).dedup.filter
            (fun x => decide (x ∈ order))).length ≤
            (presentDeps (taskIds tasks) t).length :=
          le_trans (List.length_filter_le _ _) ((List.dedup_sublist _).length_le)
        rw [hpf t.task_id]
        by_cases hin : t.task_id ∈ taskIds (tasks.filter (fun u =>
            decide (current ∈ u.depends_on)))
        · rw [if_pos hin]
          intro hzero
          have hct : current ∈ t.depends_on := by
            simpa using (taskIds_filter_mem hids ht _).mp hin
          have hdeg1 : deg t.task_id = 1 := by omega
          exact hnq.2 ((hmemQ t ht).mpr ⟨hct, hdeg1⟩)
        · rw [if_neg hin]
          exact holdmiss


theorem kahnSort_spec (tasks : List Task) (hids : (taskIds tasks).Nodup) :
    (kahnSort tasks).Nodup ∧
    (∀ x ∈ kahnSort tasks, x ∈ taskIds tasks) ∧
    (∀ t ∈ tasks, t.task_id ∈ kahnSort tasks →
      ∀ d ∈ presentDeps (taskIds tasks) t,
        d ∈ (kahnSort tasks).takeWhile (fun x => decide (x ≠ t.task_id))) ∧
    (∀ t ∈ tasks, (presentDeps (taskIds tasks) t).Nodup →
      t.task_id ∉ kahnSort tasks →
      ∃ d ∈ presentDeps (taskIds tasks) t, d ∉ kahnSort tasks) := by
  have hres : kahnSort tasks = kahnLoop tasks tasks.length (initInDegree tasks)
      (taskIds (tasks.filter (fun t =>
        decide (initInDegree tasks t.task_id = 0)))) [] := rfl
  rw [hres]
  refine kahnLoop_invariant tasks hids tasks.length (initInDegree tasks) _ []
    ?_ ?_ ?_ ?_ ?_ ?_ ?_ ?_
  · simp
  · intro x hx
    exact taskIds_filter_subset tasks _ x hx
  · intro x hx
    cases hx
  · simpa using taskIds_filter_nodup tasks hids _
  · intro t ht
    rw [initInDegree_eq hids ht]
    simp
  · intro t ht hmem d hd
    have hz : initInDegree tasks t.task_id = 0 := by
      have hp := (taskIds_filter_mem hids ht _).mp hmem
      simpa using hp
    rw [initInDegree_eq hids ht] at hz
    have hlen0 : (presentDeps (taskIds tasks) t).length = 0 := by
      exact_mod_cast hz
    rw [List.length_eq_zero] at hlen0
    rw [hlen0] at hd
    cases hd
  · intro t ht hmem
    cases hmem
  · intro t ht _ hnq hz
    exact hnq ((taskIds_filter_mem hids ht _).mpr (by simpa using hz))

/-- C1 counterexample to the claim as stated: `dupTasks` is acyclic (its
only edge is a-before-b), yet because task b lists the dependency "a"
twice, its in-degree starts at 2 and is decremented only once when "a" is
popped, so b never reaches the queue and is missing from the returned
order — it is not placed after its dependencies at all. -/
theorem topological_sort_misses_task_with_duplicate_deps :
    AcyclicTasks dupTasks ∧ "b" ∈ taskIds dupTasks ∧
    "b" ∉ dupDAG.topological_sort := by
  refine ⟨⟨fun s => if s = "b" then 1 else 0, ?_⟩, by decide, by decide⟩
  intro t ht dep hdep hdep_ids
  rcases List.mem_cons.mp ht with rfl | ht
  · simp [depTask, Task.init] at hdep
  · rcases List.mem_cons.mp ht with rfl | ht
    · have hda : dep = "a" := by
        have h2 : dep ∈ ["a", "a"] := by simpa [depTask, Task.init] using hdep
        rcases List.mem_cons.mp h2 with rfl | h2
        · rfl
        · exact List.mem_singleton.mp h2
      subst hda
      decide
    · cases ht

/-- C1 amended: for every DAG whose dependency graph is acyclic and whose
tasks each list their dependencies without duplicates, the order returned
by `topological_sort` contains every task, placed strictly after each of
its dependencies that is present in the task mapping (dangling ids are
silently ignored by the in-degree count and cannot appear in the order). -/
theorem topological_sort_places_tasks_after_deps (d : DAG)
    (hids : (taskIds d.tasks).Nodup)
    (hdeps : ∀ t ∈ d.tasks, t.depends_on.Nodup)
    (hacy : AcyclicTasks d.tasks) :
    ∀ t ∈ d.tasks, t.task_id ∈ d.topological_sort ∧
      ∀ dep ∈ t.depends_on, dep ∈ taskIds d.tasks →
        d.topological_sort.indexOf dep <
          d.topological_sort.indexOf t.task_id := by
  obtain ⟨hnd, hsub, hsound, hmissing⟩ := kahnSort_spec d.tasks hids
  obtain ⟨rank, hrank⟩ := hacy
  have hcomplete : ∀ (n : Nat), ∀ t ∈ d.tasks, rank t.task_id < n →
      t.task_id ∈ kahnSort d.tasks := by
    intro n
    induction n with
    | zero =>
      intro t ht h0
      omega
    | succ n ihn =>
      intro t ht hlt
      by_contra hnot
      obtain ⟨dep, hdep_pd, hdep_not⟩ :=
        hmissing t ht (List.Nodup.filter _ (hdeps t ht)) hnot
      have hdmem := List.mem_filter.mp hdep_pd
      have hdep_ids : dep ∈ taskIds d.tasks := by simpa using hdmem.2
      obtain ⟨u, hu, hu_id⟩ := mem_taskIds.mp hdep_ids
      have hrk : rank dep < rank t.task_id := hrank t ht dep hdmem.1 hdep_ids
      have humem : u.task_id ∈ kahnSort d.tasks :=
        ihn u hu (by rw [hu_id]; omega)
      rw [hu_id] at humem
      exact hdep_not humem
  intro t ht
  have htmem : t.task_id ∈ kahnSort d.tasks :=
    hcomplete (rank t.task_id + 1) t ht (by omega)
  refine ⟨htmem, ?_⟩
  intro dep hdep hdep_ids
  have hpd : dep ∈ presentDeps (taskIds d.tasks) t :=
    List.mem_filter.mpr ⟨hdep, by simpa using hdep_ids⟩
  exact indexOf_lt_of_mem_takeWhile (hsound t ht htmem dep hpd) htmem

/-- Witness for the amended C1 on the two-task chain with a dangling
dependency: "b" appears in the order, after its dependency "a". -/
theorem topological_sort_places_tasks_after_deps_witness :
    ((taskIds chainTasks).Nodup ∧ AcyclicTasks chainTasks) ∧
    "b" ∈ chainDAG.topological_sort ∧
    chainDAG.topological_sort.indexOf "a" <
      chainDAG.topological_sort.indexOf "b" := by
  have hids : (taskIds chainTasks).Nodup := by decide
  have hdeps : ∀ t ∈ chainTasks, t.depends_on.Nodup := by
    intro t ht
    rcases List.mem_cons.mp ht with rfl | ht
    · decide
    · rcases List.mem_cons.mp ht with rfl | ht
      · decide
      · cases ht
  have hacy : AcyclicTasks chainTasks := by
    refine ⟨fun s => if s = "b" then 1 else 0, ?_⟩
    intro t ht dep hdep hdep_ids
    rcases List.mem_cons.mp ht with rfl | ht
    · have hg : dep = "ghost" := by
        simpa [depTask, Task.init] using hdep
      rw [hg] at hdep_ids
      simp [taskIds, chainTasks, depTask, Task.init] at hdep_ids
    · rcases List.mem_cons.mp ht with rfl | ht
      · have ha : dep = "a" := by
          simpa [depTask, Task.init] using hdep
        subst ha
        decide
      · cases ht
  obtain ⟨hb, hord⟩ := topological_sort_places_tasks_after_deps chainDAG
    hids hdeps hacy (depTask "b" ["a"])
    (List.mem_cons_of_mem _ (List.mem_cons_self _ _))
  refine ⟨⟨hids, hacy⟩, hb, ?_⟩
  exact hord "a" (List.mem_cons_self _ _) (by decide)

/-- C6. On a task graph with a dependency cycle, `topological_sort`
returns normally (the model is a total function with no error channel,
matching the source, which signals nothing) and the returned order is
strictly shorter than the task count. -/
theorem topological_sort_cycle_short (d : DAG)
    (hids : (taskIds d.tasks).Nodup)
    (hcyc : ¬ AcyclicTasks d.tasks) :
    d.topological_sort.length < d.tasks.length := by
  obtain ⟨hnd, hsub, hsound, _⟩ := kahnSort_spec d.tasks hids
  show (kahnSort d.tasks).length < d.tasks.length
  have hlen : (kahnSort d.tasks).length ≤ d.tasks.length := by
    have hsp : (kahnSort d.tasks).Subperm (taskIds d.tasks) :=
      hnd.subperm hsub
    have hle := hsp.length_le
    have hml : (taskIds d.tasks).length = d.tasks.length :=
      List.length_map _ _
    omega
  by_contra hnot
  have heq : (taskIds d.tasks).length ≤ (kahnSort d.tasks).length := by
    have hml : (taskIds d.tasks).length = d.tasks.length :=
      List.length_map _ _
    omega
  have hperm : (kahnSort d.tasks).Perm (taskIds d.tasks) :=
    (hnd.subperm hsub).perm_of_length_le heq
  apply hcyc
  refine ⟨fun s => (kahnSort d.tasks).indexOf s, ?_⟩
  intro t ht dep hdep hdep_ids
  have htmem : t.task_id ∈ kahnSort d.tasks :=
    hperm.mem_iff.mpr (List.mem_map_of_mem _ ht)
  have hpd : dep ∈ presentDeps (taskIds d.tasks) t :=
    List.mem_filter.mpr ⟨hdep, by simpa using hdep_ids⟩
  exact indexOf_lt_of_mem_takeWhile (hsound t ht htmem dep hpd) htmem

/-- Witness for C6 on the two-task cycle: the returned order is shorter
than the task count (it is in fact empty). -/
theorem topological_sort_cycle_short_witness :
    ((taskIds cycTasks).Nodup ∧ ¬ AcyclicTasks cycTasks) ∧
    cycDAG.topological_sort.length < cycDAG.tasks.length := by
  have hids : (taskIds cycTasks).Nodup := by decide
  have hcyc : ¬ AcyclicTasks cycTasks := by
    rintro ⟨rank, hr⟩
    have h1 := hr (depTask "a" ["b"]) (List.mem_cons_self _ _) "b"
      (List.mem_cons_self _ _) (by decide)
    have h2 := hr (depTask "b" ["a"])
      (List.mem_cons_of_mem _ (List.mem_cons_self _ _)) "a"
      (List.mem_cons_self _ _) (by decide)
    simp only [depTask, Task.init] at h1 h2
    omega
  exact ⟨⟨hids, hcyc⟩, topological_sort_cycle_short cycDAG hids hcyc⟩

end Workflow
